import Mathlib

/-!
Verification of the link-resolution and reformatting core of the Aurora
static site generator (wheelercj/Aurora).

The definitions below are a shallow embedding of the current revision of the
program, the `ssg` package (`src/ssg/zettel.py`, `src/ssg/convert_links.py`,
`src/ssg/reformat_zettels.py`, `src/ssg/indexes.py`, `src/ssg/generate_site.py`,
`src/ssg/settings.py`); where a claim also concerns the older top-level
revision (`src/zettel.py`), its function is embedded separately under an
`old` prefixed name.  Strings are modelled as Lean `String`/`List Char`;
regular-expression searches are embedded as explicit character scanners
following the concrete default patterns of `ssg/settings.py`; Python
exceptions (`AttributeError`, `ValueError`) are modelled with `Except`.
File I/O (reading a note before a rewrite, persisting it afterwards) is kept
outside the embedding: each embedded operation maps the text contents it
would read to the text contents it would write, together with the warnings
it would log.
-/

namespace Aurora

/-- One discovered note, as built by `ssg/zettel.py` `Zettel.__init__`:
`file_name` is the stem, `file_name_and_ext` includes the extension,
`id` is the optional 14-digit identifier, `title` the derived title and
`tags` the tag matches found in the body. -/
structure Zettel where
  file_name : String
  file_name_and_ext : String
  id : Option String
  title : String
  tags : List String
deriving DecidableEq, Repr

/-- Embeds `Zettel.__get_zettel_link`: `[[id]] title` when the note has an ID,
otherwise `[[file name]]`. -/
def Zettel.link (z : Zettel) : String :=
  match z.id with
  | none => "[[" ++ z.file_name ++ "]]"
  | some i => "[[" ++ i ++ "]] " ++ z.title

/-- Embeds `Zettel.__get_zettel_name_link`: always `[[file name]]`. -/
def Zettel.alt_link (z : Zettel) : String :=
  "[[" ++ z.file_name ++ "]]"

/-- Embeds `settings["patterns"]["zk id"].match(identifier)` with the default
pattern `(\d{14})`: a match exists iff the string starts with 14 digits
(`re.match` anchors at the start only; a longer string still matches). -/
def zkIdMatch (s : String) : Bool :=
  (s.data.take 14).length = 14 && (s.data.take 14).all Char.isDigit

/-- Embeds `ssg/zettel.py` `get_zettel_by_id_or_file_name`: try the ID lookup when
the identifier looks like an ID, then fall back to the file stem, then to
the file name with extension, and finally to `None`. -/
def get_zettel_by_id_or_file_name (identifier : String) (zettels : List Zettel) :
    Option Zettel :=
  match (if zkIdMatch identifier then
           zettels.find? (fun z => z.id = some identifier)
         else none) with
  | some z => some z
  | none =>
      match zettels.find? (fun z => z.file_name = identifier) with
      | some z => some z
      | none => zettels.find? (fun z => z.file_name_and_ext = identifier)

/-- Embeds `src/zettel.py` `get_zettel_by_id`: first note whose `id` equals the
link ID, else `None`.  NOTE: `src/ssg/convert_links.py` line 3 imports this
very name from `ssg.zettel`, where it no longer exists (it was replaced by
`get_zettel_by_id_or_file_name`); the embedded behaviour below is the one
the name had in the last revision that defined it. -/
def get_zettel_by_id (link_id : String) (zettels : List Zettel) : Option Zettel :=
  zettels.find? (fun z => z.id = some link_id)

/-- One step of the scan of
`re.escape("[[") + r"(\d{14})" + re.escape("]]")`: at the current position,
either the text starts with `[[`, exactly 14 digits and `]]` (the captured
digits and the remaining text after the closing brackets are returned), or
there is no match at this position. -/
def tryLinkAt (l : List Char) : Option (String × List Char) :=
  match l with
  | '[' :: '[' :: rest =>
      if (rest.take 14).length = 14 && (rest.take 14).all Char.isDigit then
        match rest.drop 14 with
        | ']' :: ']' :: rest2 => some (String.mk (rest.take 14), rest2)
        | _ => none
      else none
  | _ => none

/-- The scan of `link_id_pattern.findall`, structured with a fuel argument
(the fuel only has to dominate the text length; every recursive call
strictly shortens the text, so the wrapper below never exhausts it). -/
def findLinkIdsFuel : Nat → List Char → List String
  | 0, _ => []
  | _ + 1, [] => []
  | fuel + 1, c :: rest =>
      match tryLinkAt (c :: rest) with
      | some (i, rest2) => i :: findLinkIdsFuel fuel rest2
      | none => findLinkIdsFuel fuel rest

/-- Embeds `link_id_pattern.findall(contents)`: the captured 14-digit IDs of all
non-overlapping `[[dddddddddddddd]]` matches, scanning left to right and
resuming after each match. -/
def findLinkIds (l : List Char) : List String :=
  findLinkIdsFuel l.length l

/-- Python's substring test `pat in s`, on character lists. -/
def occursIn (pat : List Char) : List Char → Bool
  | [] => pat.isEmpty
  | c :: rest => pat.isPrefixOf (c :: rest) || occursIn pat rest

/-- The scan of Python's `str.replace`, structured with a fuel argument
(every recursive call strictly shortens the text, so the wrapper below
never exhausts the fuel; an exhausted scan returns the rest unchanged). -/
def replaceAllLFuel : Nat → List Char → List Char → List Char → List Char
  | 0, _, _, l => l
  | _ + 1, _, _, [] => []
  | fuel + 1, pat, rep, c :: rest =>
      if pat ≠ [] ∧ pat.isPrefixOf (c :: rest) then
        rep ++ replaceAllLFuel fuel pat rep (List.drop pat.length (c :: rest))
      else c :: replaceAllLFuel fuel pat rep rest

/-- Python's `str.replace(pat, rep)`: replace every non-overlapping
occurrence, scanning left to right (the embedding is only used with
non-empty patterns). -/
def replaceAllL (pat rep : List Char) (l : List Char) : List Char :=
  replaceAllLFuel l.length pat rep l

theorem replaceAllLFuel_of_not_occurs {pat : List Char} (rep : List Char)
    {l : List Char} (fuel : Nat) (h : occursIn pat l = false) :
    replaceAllLFuel fuel pat rep l = l := by
  induction fuel generalizing l with
  | zero => rfl
  | succ fuel ih =>
      cases l with
      | nil => rfl
      | cons c rest =>
          simp only [occursIn, Bool.or_eq_false_iff] at h
          rw [replaceAllLFuel]
          rw [if_neg (by simp [h.1])]
          rw [ih h.2]

theorem replaceAllL_of_not_occurs {pat : List Char} (rep : List Char)
    {l : List Char} (h : occursIn pat l = false) : replaceAllL pat rep l = l :=
  replaceAllLFuel_of_not_occurs rep l.length h

/-- The warning text logged by `convert_zettel_links_from_zk_to_md` when a
link has a valid ID but an outdated title. -/
def staleWarning (zettel linked : Zettel) : String :=
  "`" ++ zettel.title ++ "` has a link with a valid ID " ++
    "but an outdated title. It should be: " ++ linked.link

/-- The loop body of `convert_zettel_links_from_zk_to_md`
(`src/ssg/convert_links.py` lines 79-88): for each distinct link ID, look the
target up (`get_zettel_by_id`; the lookup result is dereferenced with
`.link` without a `None` check, so an unresolved ID raises `AttributeError`,
modelled as `Except.error`), log the outdated-title warning when the
target's canonical link text does not occur in the current contents, and
replace every occurrence of the canonical link text with the formatted
markdown link. -/
def convertLoop (zettel : Zettel) (zettels : List Zettel)
    (md_linker : Zettel → Zettel → String) :
    List String → String → List String → Except String (String × List String)
  | [], contents, warnings => .ok (contents, warnings)
  | link_id :: rest, contents, warnings =>
      match get_zettel_by_id link_id zettels with
      | none =>
          .error ("AttributeError: 'NoneType' object has no attribute 'link'" ++
            " (unresolved reference " ++ link_id ++ ")")
      | some linked_z =>
          let warnings' :=
            if occursIn linked_z.link.data contents.data then warnings
            else warnings ++ [staleWarning zettel linked_z]
          convertLoop zettel zettels md_linker rest
            (String.mk (replaceAllL linked_z.link.data
              (md_linker zettel linked_z).data contents.data))
            warnings'

/-- Embeds `convert_zettel_links_from_zk_to_md` as a contents transformation: the
distinct link IDs found in the contents are processed by `convertLoop`
(Python iterates `set(link_ids)` in an unspecified order; the embedding uses
first-occurrence order, and nothing proved below depends on the order).  On
success the result is the contents that `save_zettel` would persist together
with the warnings logged; an unresolved ID aborts with the `AttributeError`
the source raises, and nothing is persisted. -/
def convert_zettel_links_from_zk_to_md (zettel : Zettel) (zettels : List Zettel)
    (md_linker : Zettel → Zettel → String) (contents : String) :
    Except String (String × List String) :=
  convertLoop zettel zettels md_linker
    (findLinkIds contents.data).eraseDups contents []

/-- The default `md_linker` of `convert_links_from_zk_to_md`. -/
def default_md_linker (_z linked_z : Zettel) : String :=
  "[" ++ linked_z.title ++ "](" ++ linked_z.file_name ++ ")"

/-- The `"root pages"` default of `ssg/settings.py`. -/
def rootPages : List String :=
  ["index", "about", "alphabetical-index", "chronological-index"]

/-- The `"site subfolder name"` default of `ssg/settings.py`. -/
def siteSubfolderName : String := "pages"

/-- The `"internal html link prefix"` default of `ssg/settings.py`. -/
def internalHtmlLinkPrefixSetting : String := "[§] "

/-- Embeds `re.search(r"^# (.+)$", contents)` of the default `"h1 content"` pattern
of `ssg/settings.py`, compiled without `re.MULTILINE`: `^` only matches at
the very start of the string and `$` only at its end or just before a
single final newline, so a match exists iff the whole contents are
`"# " ++ t` or `"# " ++ t ++ "\n"` with `t` non-empty and newline-free.
The source keeps `match[0]`, the full match including the `"# "` marker. -/
def ssgH1Match (contents : String) : Option String :=
  match contents.data with
  | '#' :: ' ' :: rest =>
      let t := rest.takeWhile (fun c => c ≠ '\n')
      let after := rest.drop t.length
      if t ≠ [] ∧ (after = [] ∨ after = ['\n']) then
        some (String.mk ('#' :: ' ' :: t))
      else none
  | _ => none

/-- Embeds `ssg/zettel.py` `Zettel.__get_zettel_title`: the fixed titles for the
`index.md`/`about.md` filename conventions, else the `"h1 content"` match,
else the file name including the extension. -/
def ssg_get_zettel_title (file_name_and_ext contents : String) : String :=
  if file_name_and_ext = "index.md" then "index"
  else if file_name_and_ext = "about.md" then "about"
  else
    match ssgH1Match contents with
    | some t => t
    | none => file_name_and_ext

/-- Python's `\s` character class (ASCII part; the embedding is only
evaluated on ASCII inputs). -/
def isPySpace (c : Char) : Bool :=
  c = ' ' || c = '\t' || c = '\n' || c = '\r' || c = '\x0c' || c = '\x0b'

/-- Embeds `re.search(r"(?<=#\s).+", contents)` of `src/patterns.py` `h1_content`:
scan for the first position preceded by `#` and one whitespace character
whose own character is not a newline; the match is the rest of that line.
The scanner carries the two previously seen characters. -/
def oldH1Aux (p2 p1 : Option Char) : List Char → Option (List Char)
  | [] => none
  | c :: rest =>
      if p2 = some '#' ∧ (p1.map isPySpace).getD false = true ∧ c ≠ '\n' then
        some ((c :: rest).takeWhile (fun d => d ≠ '\n'))
      else oldH1Aux p1 (some c) rest

/-- Embeds `src/zettel.py` `Zettel.get_zettel_title`: the filename conventions,
else the `h1_content` match, else `raise ValueError` (modelled as
`Except.error`), aborting the run. -/
def old_get_zettel_title (file_name contents : String) : Except String String :=
  if file_name = "index.md" then .ok "index"
  else if file_name = "about.md" then .ok "about"
  else
    match oldH1Aux none none contents.data with
    | some t => .ok (String.mk t)
    | none => .error ("Zettel missing a title: " ++ file_name)

/-- Embeds `ssg/reformat_zettels.py` `md_linker_creator.create_markdown_link`: when
the linked note is not a root page but the source note is, the link target
is prefixed with the site subfolder name; in every other case the target is
the linked note's bare file name with extension. -/
def create_markdown_link (zettel linked_zettel : Zettel) : String :=
  if ¬ rootPages.contains linked_zettel.file_name ∧
      rootPages.contains zettel.file_name then
    "[" ++ internalHtmlLinkPrefixSetting ++ linked_zettel.title ++ "](" ++
      siteSubfolderName ++ "/" ++ linked_zettel.file_name_and_ext ++ ")"
  else
    "[" ++ internalHtmlLinkPrefixSetting ++ linked_zettel.title ++ "](" ++
      linked_zettel.file_name_and_ext ++ ")"

/-- Python's `str.endswith`. -/
def pyEndsWith (s suffix : String) : Bool :=
  suffix.data.isSuffixOf s.data

/-- Python's `str.split("\n")`: the (possibly empty) segments between
newlines; an empty string yields one empty segment. -/
def splitNewlinesL : List Char → List (List Char)
  | [] => [[]]
  | '\n' :: rest => [] :: splitNewlinesL rest
  | c :: rest =>
      match splitNewlinesL rest with
      | [] => [[c]]
      | g :: gs => (c :: g) :: gs

/-- Embeds `file.read().split("\n")` on the ignore file's contents. -/
def pySplitNewlines (s : String) : List String :=
  (splitNewlinesL s.data).map String.mk

/-- Embeds `ssg/generate_site.py` `delete_old_html_files`, as the list of paths
offered to the per-file confirmation menu: the ignore file's contents are
split on newlines (a missing file, `FileNotFoundError`, yields the empty
list) and normalized; an old path is a deletion candidate iff its
normalization is not among the newly generated paths, does not end with
`footer.html` or `header.html`, and is not among the normalized ignored
paths.  `os.path.normpath` is kept abstract as the parameter `norm`. -/
def delete_old_html_files (norm : String → String)
    (old_html_paths new_html_paths : List String)
    (ignoreFileContents : Option String) : List String :=
  let ignored_html_paths :=
    ((ignoreFileContents.map pySplitNewlines).getD []).map norm
  (old_html_paths.map norm).filter (fun p =>
    ¬ new_html_paths.contains p ∧
    ¬ pyEndsWith p "footer.html" ∧
    ¬ pyEndsWith p "header.html" ∧
    ¬ ignored_html_paths.contains p)

/-- A user decision in `show_delete_confirmation_menu`. -/
inductive DeleteDecision
  | viewIt
  | deleteIt
  | cancelIt
deriving DecidableEq, Repr

/-- A filesystem-affecting action the reconciler can perform.  The
`permanentUnlink` constructor exists only to state that the reconciler
never performs it. -/
inductive FsAction
  | openInBrowser (path : String)
  | sendToTrash (path : String)
  | permanentUnlink (path : String)
deriving DecidableEq, Repr

/-- Embeds `show_delete_confirmation_menu`: the window loops on `Open`, a `Delete`
event sends the file to the trash (`send2trash`) and closes, anything else
closes leaving the file alone. -/
def show_delete_confirmation_menu (path : String) :
    List DeleteDecision → List FsAction
  | [] => []
  | .viewIt :: rest => .openInBrowser path :: show_delete_confirmation_menu path rest
  | .deleteIt :: _ => [.sendToTrash path]
  | .cancelIt :: _ => []

/-- The filesystem actions of a whole `delete_old_html_files` run, given the
user's decisions for each candidate path. -/
def deleteOldHtmlFilesActions (norm : String → String)
    (old_html_paths new_html_paths : List String)
    (ignoreFileContents : Option String)
    (decisions : String → List DeleteDecision) : List FsAction :=
  (delete_old_html_files norm old_html_paths new_html_paths
    ignoreFileContents).flatMap
    (fun p => show_delete_confirmation_menu p (decisions p))

/-- The sort key of `create_chronological_index`: `lambda z: z.id` (every
sorted note has an ID; `getD` only totalizes the embedding). -/
def chronoKey (z : Zettel) : String :=
  z.id.getD ""

/-- Python's lexicographic `<` on strings, by code point. -/
def strLtL : List Char → List Char → Bool
  | [], [] => false
  | [], _ :: _ => true
  | _ :: _, [] => false
  | a :: as, b :: bs =>
      if a.toNat < b.toNat then true
      else if b.toNat < a.toNat then false
      else strLtL as bs

/-- Python's `<` on strings. -/
def pyStrLt (a b : String) : Bool :=
  strLtL a.data b.data

theorem strLtL_asymm {a b : List Char} (h : strLtL a b = true) :
    strLtL b a = false := by
  induction a generalizing b with
  | nil =>
      cases b with
      | nil => exact absurd h (by simp [strLtL])
      | cons y ys => rfl
  | cons x xs ih =>
      cases b with
      | nil => exact absurd h (by simp [strLtL])
      | cons y ys =>
          rw [strLtL] at h
          rw [strLtL]
          split at h
          · next hxy =>
              rw [if_neg (by omega), if_pos hxy]
          · split at h
            · exact absurd h (by simp)
            · next hnxy hnyx =>
                rw [if_neg hnyx, if_neg hnxy]
                exact ih h

theorem strLtL_neg_trans {a b c : List Char} (hab : strLtL a b = false)
    (hbc : strLtL b c = false) : strLtL a c = false := by
  induction a generalizing b c with
  | nil =>
      cases b with
      | nil =>
          cases c with
          | nil => rfl
          | cons z zs => exact absurd hbc (by simp [strLtL])
      | cons y ys => exact absurd hab (by simp [strLtL])
  | cons x xs ih =>
      cases b with
      | nil =>
          cases c with
          | nil => rfl
          | cons z zs => exact absurd hbc (by simp [strLtL])
      | cons y ys =>
          cases c with
          | nil => rfl
          | cons z zs =>
              rw [strLtL] at hab hbc
              rw [strLtL]
              split at hab
              · exact absurd hab (by simp)
              · next hnxy =>
                  split at hbc
                  · exact absurd hbc (by simp)
                  · next hnyz =>
                      rw [if_neg (by omega)]
                      split at hab
                      · next hyx =>
                          rw [if_pos (by
                            by_contra hnzx
                            split at hbc
                            · next hzy => omega
                            · next hnzy => omega)]
                      · next hnyx =>
                          split at hbc
                          · next hzy => rw [if_pos (by omega)]
                          · next hnzy =>
                              rw [if_neg (by omega)]
                              exact ih hab hbc

/-- Stable insertion for descending order: the new element is placed after
every element with a strictly greater key and before the first element with
an equal or smaller key, which is exactly where Python's stable
`sorted(key=..., reverse=True)` puts it relative to elements that occurred
later in the input. -/
def insertDescBy (key : Zettel → String) (x : Zettel) : List Zettel → List Zettel
  | [] => [x]
  | y :: ys =>
      if pyStrLt (key x) (key y) then y :: insertDescBy key x ys
      else x :: y :: ys

/-- Stable descending sort, embedding `sorted(..., key=..., reverse=True)`. -/
def sortDescBy (key : Zettel → String) : List Zettel → List Zettel
  | [] => []
  | x :: xs => insertDescBy key x (sortDescBy key xs)

theorem insertDescBy_perm (key : Zettel → String) (x : Zettel) (l : List Zettel) :
    (insertDescBy key x l).Perm (x :: l) := by
  induction l with
  | nil => simp [insertDescBy]
  | cons y ys ih =>
      rw [insertDescBy]
      split
      · exact (ih.cons y).trans (List.Perm.swap x y ys)
      · exact List.Perm.refl _

theorem sortDescBy_perm (key : Zettel → String) (l : List Zettel) :
    (sortDescBy key l).Perm l := by
  induction l with
  | nil => exact List.Perm.refl _
  | cons x xs ih =>
      rw [sortDescBy]
      exact (insertDescBy_perm key x (sortDescBy key xs)).trans (ih.cons x)

theorem insertDescBy_pairwise (key : Zettel → String) (x : Zettel)
    {l : List Zettel}
    (h : l.Pairwise (fun a b => pyStrLt (key a) (key b) = false)) :
    (insertDescBy key x l).Pairwise
      (fun a b => pyStrLt (key a) (key b) = false) := by
  induction l with
  | nil => simp [insertDescBy]
  | cons y ys ih =>
      rw [List.pairwise_cons] at h
      rw [insertDescBy]
      split
      · next hlt =>
          rw [List.pairwise_cons]
          refine ⟨?_, ih h.2⟩
          intro b hb
          have hb' : b ∈ x :: ys := (insertDescBy_perm key x ys).mem_iff.mp hb
          rcases List.mem_cons.mp hb' with hbx | hby
          · subst hbx
            exact strLtL_asymm hlt
          · exact h.1 b hby
      · next hnlt =>
          rw [List.pairwise_cons]
          refine ⟨?_, List.pairwise_cons.mpr h⟩
          intro b hb
          rcases List.mem_cons.mp hb with hby | hbys
          · subst hby
            exact Bool.eq_false_iff.mpr hnlt
          · exact strLtL_neg_trans (Bool.eq_false_iff.mpr hnlt) (h.1 b hbys)

theorem sortDescBy_pairwise (key : Zettel → String) (l : List Zettel) :
    (sortDescBy key l).Pairwise
      (fun a b => pyStrLt (key a) (key b) = false) := by
  induction l with
  | nil => simp [sortDescBy]
  | cons x xs ih =>
      rw [sortDescBy]
      exact insertDescBy_pairwise key x ih

/-- The date prefix of a chronological index entry:
`f"{zettel.id[0:4]}/{zettel.id[4:6]}/{zettel.id[6:8]}"`. -/
def chronoDate (z : Zettel) : String :=
  let i := (z.id.getD "").data
  String.mk (i.take 4) ++ "/" ++ String.mk ((i.drop 4).take 2) ++ "/" ++
    String.mk ((i.drop 6).take 2)

/-- One entry of the chronological index, with or without its date prefix. -/
def chronoEntry (hide_chrono_index_dates : Bool) (z : Zettel) : String :=
  if hide_chrono_index_dates then "* " ++ z.link
  else "* " ++ chronoDate z ++ " " ++ z.link

/-- The explanatory paragraph shown when dates are not hidden. -/
def chronoDatesNote : String :=
  "_Dates shown here are the original file creation dates, not necessarily" ++
    " latest edit or post dates._\n\n"

/-- Embeds `ssg/indexes.py` `create_chronological_index`: non-root notes with an ID,
sorted by ID descending, then the non-root notes without an ID under an
"undated pages" heading (omitted when there are none). -/
def create_chronological_index (zettels : List Zettel)
    (hide_chrono_index_dates : Bool) : String :=
  let non_root_zettels := zettels.filter (fun z => ¬ rootPages.contains z.file_name)
  let zettels_with_ids := non_root_zettels.filter (fun z => z.id.isSome)
  let sorted_zettels := sortDescBy chronoKey zettels_with_ids
  let z_with_id_links := sorted_zettels.map (chronoEntry hide_chrono_index_dates)
  let zettels_without_ids := non_root_zettels.filter (fun z => z.id.isNone)
  let z_without_id_links := zettels_without_ids.map (fun z => "* " ++ z.link)
  let parts1 : List String :=
    if hide_chrono_index_dates then [] else [chronoDatesNote]
  let parts2 := parts1 ++ [String.intercalate "\n" z_with_id_links]
  let parts3 :=
    if z_without_id_links.isEmpty then parts2
    else parts2 ++ ["\n\n### undated pages\n\n" ++
      String.intercalate "\n" z_without_id_links]
  String.join parts3

/-- Python's `list.remove(x)`: drop the first occurrence, or raise
`ValueError` when `x` is absent (`none` here).  In the source the list
holds `Zettel` objects compared by identity; the theorems that use this
assume the note list has no duplicates, which object identity guarantees. -/
def pyListRemove (x : Zettel) (l : List Zettel) : Option (List Zettel) :=
  if x ∈ l then some (l.erase x) else none

/-- Whether the inner loop of `create_categorical_indexes` links a note for
a given tag: the note is not a root page and carries the tag. -/
def catMatches (index_tag : String) (z : Zettel) : Bool :=
  ¬ rootPages.contains z.file_name ∧ index_tag ∈ z.tags

/-- The inner loop of `create_categorical_indexes` for one tag: scan all
notes; each match appends a link line and removes the note from the
uncategorized pool (raising `ValueError` when it was already removed). -/
def catTagPass (index_tag : String) :
    List Zettel → List Zettel → Except String (List String × List Zettel)
  | [], unlinked => .ok ([], unlinked)
  | z :: zs, unlinked =>
      if catMatches index_tag z then
        match pyListRemove z unlinked with
        | none => .error "ValueError: list.remove(x): x not in list"
        | some unlinked' =>
            match catTagPass index_tag zs unlinked' with
            | .error e => .error e
            | .ok (links, unlinked'') =>
                .ok (("* " ++ z.link) :: links, unlinked'')
      else catTagPass index_tag zs unlinked

/-- The outer loop of `create_categorical_indexes` over the declared index
tags, threading the uncategorized pool. -/
def catLoop (zettels : List Zettel) :
    List String → List Zettel → Except String (List (String × List String) × List Zettel)
  | [], unlinked => .ok ([], unlinked)
  | index_tag :: rest, unlinked =>
      match catTagPass index_tag zettels unlinked with
      | .error e => .error e
      | .ok (links, unlinked') =>
          match catLoop zettels rest unlinked' with
          | .error e => .error e
          | .ok (categories, unlinked'') =>
              .ok ((index_tag, links) :: categories, unlinked'')

/-- Embeds `ssg/indexes.py` `create_categorical_indexes`: categorize every
non-root note under each declared tag it carries, collect the remaining
non-root notes under `#other`, and join each bucket's lines.  The
categories are returned as an insertion-ordered association list; Python's
`list.remove` raises `ValueError` when a note is removed twice, which
propagates as `Except.error`. -/
def create_categorical_indexes (zettels : List Zettel)
    (index_tags : List String) : Except String (List (String × String)) :=
  match catLoop zettels index_tags zettels with
  | .error e => .error e
  | .ok (categories, unlinked_zettels) =>
      let others := (unlinked_zettels.filter
        (fun z => ¬ rootPages.contains z.file_name)).map (fun z => "* " ++ z.link)
      let categories' :=
        if others.isEmpty then categories else categories ++ [("#other", others)]
      .ok (categories'.map (fun kv => (kv.1, String.intercalate "\n" kv.2)))

/-- Case-insensitive literal matching: consume the characters of the
(lowercase) pattern from the front of the text, returning the rest. -/
def ciTake : List Char → List Char → Option (List Char)
  | [], l => some l
  | _ :: _, [] => none
  | p :: ps, c :: cs => if c.toLower = p then ciTake ps cs else none

theorem ciTake_length {ps l r : List Char} (h : ciTake ps l = some r) :
    r.length + ps.length = l.length := by
  induction ps generalizing l with
  | nil =>
      simp only [ciTake, Option.some_inj] at h
      simp [h]
  | cons p ps ih =>
      cases l with
      | nil => exact absurd h (by simp [ciTake])
      | cons c cs =>
          simp only [ciTake] at h
          split at h
          · have := ih h
            simp only [List.length_cons]
            omega
          · exact absurd h (by simp)

/-- The part of the default `"md ext in link"` pattern
`(?i)(?<=\S)\.m(d|arkdown)(?=\))` that follows the literal dot: either `md`
(case-insensitively) directly followed by `)`, or `arkdown` after the `m`,
again followed by `)`.  The returned rest starts at the `)` lookahead,
which the regex does not consume.  (When `md` matches but the lookahead
fails, the regex alternative `arkdown` cannot match either, because the
second character lowercases to `d`, so answering `none` is faithful.) -/
def matchTail (l : List Char) : Option (List Char) :=
  match ciTake ['m', 'd'] l with
  | some rest => if rest.head? = some ')' then some rest else none
  | none =>
      match ciTake ['m', 'a', 'r', 'k', 'd', 'o', 'w', 'n'] l with
      | some rest => if rest.head? = some ')' then some rest else none
      | none => none

theorem matchTail_length {l r : List Char} (h : matchTail l = some r) :
    r.length < l.length := by
  unfold matchTail at h
  split at h
  · next heq =>
      split at h
      · cases h
        have := ciTake_length heq
        simp only [List.length_cons, List.length_nil] at this
        omega
      · exact absurd h (by simp)
  · split at h
    · next heq =>
        split at h
        · cases h
          have := ciTake_length heq
          simp only [List.length_cons, List.length_nil] at this
          omega
        · exact absurd h (by simp)
    · exact absurd h (by simp)

/-- The text substitution performed by
`settings["patterns"]["md ext in link"].subn(".html", contents)`, the core
of `redirect_links_from_md_to_html` (`ssg/reformat_zettels.py`): scanning
left to right, a position matches when the preceding character exists and
is not whitespace (`prev`), the current character is a literal dot and the
following characters match `m(d|arkdown)` case-insensitively with a `)`
lookahead; the matched span is replaced by `.html` and scanning resumes at
the unconsumed `)`. -/
def subMdExt (prev : Bool) (l : List Char) : List Char :=
  match l with
  | [] => []
  | c :: rest =>
      match h : matchTail rest with
      | some rest2 =>
          if c = '.' ∧ prev = true then
            '.' :: 'h' :: 't' :: 'm' :: 'l' :: subMdExt true rest2
          else c :: subMdExt (!c.isWhitespace) rest
      | none => c :: subMdExt (!c.isWhitespace) rest
termination_by l.length
decreasing_by
  · have := matchTail_length h
    simp only [List.length_cons]
    omega
  · simp
  · simp

/-- Embeds `redirect_links_from_md_to_html` as a transformation of one note text:
the `"md ext in link"` pattern substituted with `.html` (this is the
substitution `replace_pattern` applies to the text outside code spans;
code spans are cut out before the substitution and restored verbatim, so
they are carried through both applications unchanged). -/
def redirect_links_from_md_to_html (contents : String) : String :=
  String.mk (subMdExt false contents.data)

/-- No position of the text matches the `"md ext in link"` pattern, given
whether a non-whitespace character precedes the start. -/
def noMatchFrom : Bool → List Char → Prop
  | _, [] => True
  | prev, c :: rest =>
      ¬(c = '.' ∧ prev = true ∧ (matchTail rest).isSome = true) ∧
        noMatchFrom (!c.isWhitespace) rest

theorem subMdExt_nil (q : Bool) : subMdExt q [] = [] := by
  unfold subMdExt
  rfl

theorem subMdExt_cons_some {rest rest2 : List Char}
    (h : matchTail rest = some rest2) (q : Bool) (c : Char) :
    subMdExt q (c :: rest) =
      if c = '.' ∧ q = true then
        '.' :: 'h' :: 't' :: 'm' :: 'l' :: subMdExt true rest2
      else c :: subMdExt (!c.isWhitespace) rest := by
  conv_lhs => unfold subMdExt
  split
  · next r2 h2 =>
      rw [h] at h2
      cases h2
      rfl
  · next h2 =>
      rw [h] at h2
      cases h2

theorem subMdExt_cons_none {rest : List Char} (h : matchTail rest = none)
    (q : Bool) (c : Char) :
    subMdExt q (c :: rest) = c :: subMdExt (!c.isWhitespace) rest := by
  conv_lhs => unfold subMdExt
  split
  · next r2 h2 =>
      rw [h] at h2
      cases h2
  · rfl

/-- Structural inversion of one `subMdExt` step. -/
theorem subMdExt_step (q : Bool) (l : List Char) :
    (l = [] ∧ subMdExt q l = []) ∨
    (∃ c rest, l = c :: rest ∧
      ((∃ rest2, matchTail rest = some rest2 ∧ c = '.' ∧ q = true ∧
          subMdExt q l = '.' :: 'h' :: 't' :: 'm' :: 'l' :: subMdExt true rest2) ∨
        subMdExt q l = c :: subMdExt (!c.isWhitespace) rest)) := by
  cases l with
  | nil => exact Or.inl ⟨rfl, subMdExt_nil q⟩
  | cons c rest =>
      refine Or.inr ⟨c, rest, rfl, ?_⟩
      cases h : matchTail rest with
      | some rest2 =>
          by_cases hc : c = '.' ∧ q = true
          · exact Or.inl ⟨rest2, rfl, hc.1, hc.2, by
              rw [subMdExt_cons_some h, if_pos hc]⟩
          · exact Or.inr (by rw [subMdExt_cons_some h, if_neg hc])
      | none => exact Or.inr (subMdExt_cons_none h q c)

/-- Characters other than a dot pass through `ciTake` matching of the
substituted text back to the original text. -/
theorem ciTake_subMdExt {ps : List Char} (hps : ∀ p ∈ ps, p ≠ '.')
    {q : Bool} {l r : List Char}
    (h : ciTake ps (subMdExt q l) = some r) :
    ∃ r' q', ciTake ps l = some r' ∧ r = subMdExt q' r' := by
  induction ps generalizing q l r with
  | nil =>
      simp only [ciTake, Option.some_inj] at h
      exact ⟨l, q, rfl, h.symm⟩
  | cons p ps ih =>
      rcases subMdExt_step q l with ⟨_, hout⟩ | ⟨c, rest, hl, hcase⟩
      · rw [hout] at h
        exact absurd h (by simp [ciTake])
      · rcases hcase with ⟨rest2, _, hdot, _, hout⟩ | hout
        · rw [hout] at h
          simp only [ciTake] at h
          rw [if_neg] at h
          · exact absurd h (by simp)
          · intro hlow
            exact hps p (by simp) (by
              have hd : ('.' : Char).toLower = '.' := by decide
              rw [hd] at hlow
              exact hlow.symm)
        · rw [hout] at h
          simp only [ciTake] at h
          split at h
          · next hlow =>
              obtain ⟨r', q', hpre, hr⟩ := ih (fun x hx => hps x (by simp [hx])) h
              refine ⟨r', q', ?_, hr⟩
              rw [hl]
              simp only [ciTake]
              rw [if_pos hlow]
              exact hpre
          · exact absurd h (by simp)

/-- A non-dot head of the substituted text is the head of the original. -/
theorem head_subMdExt {q : Bool} {l : List Char} {ch : Char} (hch : ch ≠ '.')
    (h : (subMdExt q l).head? = some ch) : l.head? = some ch := by
  rcases subMdExt_step q l with ⟨hnil, hout⟩ | ⟨c, rest, hl, hcase⟩
  · rw [hout] at h
    exact absurd h (by simp)
  · rcases hcase with ⟨_, _, _, _, hout⟩ | hout
    · rw [hout] at h
      simp only [List.head?_cons, Option.some_inj] at h
      exact absurd h.symm hch
    · rw [hout] at h
      simp only [List.head?_cons, Option.some_inj] at h
      rw [hl, List.head?_cons, h]

theorem ciTake_md_of_markdown {x r : List Char}
    (h : ciTake ['m', 'a', 'r', 'k', 'd', 'o', 'w', 'n'] x = some r) :
    ciTake ['m', 'd'] x = none := by
  cases x with
  | nil => simp [ciTake] at h
  | cons a x1 =>
      cases x1 with
      | nil =>
          simp only [ciTake] at h
          split at h <;> simp [ciTake] at h
      | cons b x2 =>
          simp only [ciTake] at h ⊢
          split at h
          · next ha =>
              split at h
              · next hb =>
                  rw [if_pos ha, if_neg (by simp [hb])]
              · simp at h
          · next ha =>
              rw [if_neg ha]

/-- If the pattern tail does not match the original text, it does not match
the substituted text either. -/
theorem matchTail_subMdExt_none {l : List Char} (q : Bool)
    (h : matchTail l = none) : matchTail (subMdExt q l) = none := by
  cases hm : matchTail (subMdExt q l) with
  | none => rfl
  | some r =>
      exfalso
      unfold matchTail at hm
      split at hm
      · next heq =>
          split at hm
          · next hhead =>
              cases hm
              obtain ⟨r', q', hpre, hr⟩ := ciTake_subMdExt (by decide) heq
              rw [hr] at hhead
              have hhead' := head_subMdExt (by decide) hhead
              rw [matchTail, hpre] at h
              simp only [hhead', if_pos] at h
              exact absurd h (by simp)
          · exact absurd hm (by simp)
      · split at hm
        · next heq =>
            split at hm
            · next hhead =>
                cases hm
                obtain ⟨r', q', hpre, hr⟩ := ciTake_subMdExt (by decide) heq
                rw [hr] at hhead
                have hhead' := head_subMdExt (by decide) hhead
                rw [matchTail, ciTake_md_of_markdown hpre, hpre] at h
                simp only [hhead', if_pos] at h
                exact absurd h (by simp)
            · exact absurd hm (by simp)
        · exact absurd hm (by simp)

/-- The output of the substitution contains no match of the pattern
(fuel-indexed form for the induction). -/
theorem noMatchFrom_subMdExt_aux (n : Nat) :
    ∀ (l : List Char) (q : Bool), l.length ≤ n → noMatchFrom q (subMdExt q l) := by
  induction n with
  | zero =>
      intro l q hl
      have : l = [] := List.length_eq_zero.mp (Nat.le_zero.mp hl)
      subst this
      rw [subMdExt_nil]
      exact trivial
  | succ n ih =>
      intro l q hl
      cases l with
      | nil =>
          rw [subMdExt_nil]
          exact trivial
      | cons c rest =>
          simp only [List.length_cons, Nat.succ_le_succ_iff] at hl
          cases hmt : matchTail rest with
          | some rest2 =>
              by_cases hc : c = '.' ∧ q = true
              · rw [subMdExt_cons_some hmt, if_pos hc]
                have hlt : rest2.length ≤ n := by
                  have := matchTail_length hmt
                  omega
                refine ⟨?_, ?_, ?_, ?_, ?_, ?_⟩
                · rintro ⟨-, -, habs⟩
                  rw [show matchTail ('h' :: 't' :: 'm' :: 'l' ::
                      subMdExt true rest2) = none from ?_] at habs
                  · exact absurd habs (by simp)
                  · unfold matchTail
                    simp [ciTake, show ¬('h' : Char).toLower = 'm' by decide]
                · rintro ⟨habs, -⟩
                  exact absurd habs (by decide)
                · rintro ⟨habs, -⟩
                  exact absurd habs (by decide)
                · rintro ⟨habs, -⟩
                  exact absurd habs (by decide)
                · rintro ⟨habs, -⟩
                  exact absurd habs (by decide)
                · exact ih rest2 true hlt
              · rw [subMdExt_cons_some hmt, if_neg hc]
                refine ⟨?_, ih rest (!c.isWhitespace) hl⟩
                rintro ⟨hcdot, hq, -⟩
                exact hc ⟨hcdot, hq⟩
          | none =>
              rw [subMdExt_cons_none hmt]
              refine ⟨?_, ih rest (!c.isWhitespace) hl⟩
              rintro ⟨-, -, habs⟩
              rw [matchTail_subMdExt_none (!c.isWhitespace) hmt] at habs
              exact absurd habs (by simp)

/-- The output of the substitution contains no match of the pattern. -/
theorem noMatchFrom_subMdExt (l : List Char) (q : Bool) :
    noMatchFrom q (subMdExt q l) :=
  noMatchFrom_subMdExt_aux l.length l q (Nat.le_refl _)

/-- On match-free text the substitution is the identity. -/
theorem subMdExt_of_noMatchFrom {l : List Char} {q : Bool}
    (h : noMatchFrom q l) : subMdExt q l = l := by
  induction l generalizing q with
  | nil => rw [subMdExt_nil]
  | cons c rest ih =>
      obtain ⟨h1, h2⟩ := h
      cases hmt : matchTail rest with
      | some rest2 =>
          rw [subMdExt_cons_some hmt, if_neg, ih h2]
          rintro ⟨hcdot, hq⟩
          exact h1 ⟨hcdot, hq, by rw [hmt]; rfl⟩
      | none => rw [subMdExt_cons_none hmt, ih h2]

/-! Concrete notes used by the witnesses and counterexamples below. -/

/-- A source note without an ID. -/
def zettelA : Zettel := ⟨"a", "a.md", none, "A", []⟩

/-- A target note with an ID and a current title `New Title`, so that its
canonical link text is `[[20200522233055]] New Title`. -/
def zettelB : Zettel := ⟨"20200522233055", "20200522233055.md",
  some "20200522233055", "New Title", []⟩

/-- A note whose file stem is itself a 14-digit string but which has no ID. -/
def zettelStem : Zettel := ⟨"20200101000000", "20200101000000.md",
  none, "Stem", []⟩

/-- A distinct note whose ID is `20200101000000`. -/
def zettelWithId : Zettel := ⟨"some-other-stem", "some-other-stem.md",
  some "20200101000000", "IdNote", []⟩

/-- A non-root note living in the `pages` subfolder. -/
def pagesNote : Zettel := ⟨"20200101000001", "20200101000001.md",
  some "20200101000001", "PageNote", []⟩

/-- The root `index` note. -/
def indexNote : Zettel := ⟨"index", "index.md", none, "index", []⟩

/-- C8: the `.md`→`.html` link-extension rewrite is idempotent: applying the
`"md ext in link"` substitution twice yields the same text as applying it
once; in particular a link already rewritten to `.html` is never rewritten
again, since the substituted text contains no further pattern match. -/
theorem redirect_md_to_html_idempotent (contents : String) :
    redirect_links_from_md_to_html (redirect_links_from_md_to_html contents) =
      redirect_links_from_md_to_html contents := by
  unfold redirect_links_from_md_to_html
  congr 1
  exact subMdExt_of_noMatchFrom (noMatchFrom_subMdExt contents.data false)

/-- C4: resolution order of `get_zettel_by_id_or_file_name`: when the
reference matches the ID pattern and some note's ID equals it, the first
such note is returned; otherwise (including when the ID search found
nothing) the first note whose file stem equals the reference; otherwise the
first note whose file name with extension equals it; otherwise resolution
fails with no note.  In particular an ID match takes precedence over a
file-stem match. -/
theorem resolution_order (r : String) (S : List Zettel) :
    (zkIdMatch r = true → (∃ z ∈ S, z.id = some r) →
      get_zettel_by_id_or_file_name r S = S.find? (fun z => z.id = some r)) ∧
    ((zkIdMatch r = false ∨ ∀ z ∈ S, z.id ≠ some r) →
      (∃ z ∈ S, z.file_name = r) →
      get_zettel_by_id_or_file_name r S = S.find? (fun z => z.file_name = r)) ∧
    ((zkIdMatch r = false ∨ ∀ z ∈ S, z.id ≠ some r) →
      (∀ z ∈ S, z.file_name ≠ r) →
      get_zettel_by_id_or_file_name r S =
        S.find? (fun z => z.file_name_and_ext = r)) ∧
    ((zkIdMatch r = false ∨ ∀ z ∈ S, z.id ≠ some r) →
      (∀ z ∈ S, z.file_name ≠ r) → (∀ z ∈ S, z.file_name_and_ext ≠ r) →
      get_zettel_by_id_or_file_name r S = none) := by
  refine ⟨?_, ?_, ?_, ?_⟩
  · intro hid ⟨z, hz, hzid⟩
    unfold get_zettel_by_id_or_file_name
    rw [if_pos hid]
    have hsome : (S.find? (fun z => decide (z.id = some r))).isSome := by
      rw [List.find?_isSome]
      exact ⟨z, hz, by simp [hzid]⟩
    obtain ⟨w, hf⟩ := Option.isSome_iff_exists.mp hsome
    rw [hf]
  · intro hnoid ⟨z, hz, hzname⟩
    unfold get_zettel_by_id_or_file_name
    have hfirst : (if zkIdMatch r then S.find? (fun z => z.id = some r)
        else none) = none := by
      rcases hnoid with h | h
      · rw [h]; rfl
      · split
        · rw [List.find?_eq_none]
          intro x hx
          simp [h x hx]
        · rfl
    rw [hfirst]
    have hsome : (S.find? (fun z => decide (z.file_name = r))).isSome := by
      rw [List.find?_isSome]
      exact ⟨z, hz, by simp [hzname]⟩
    obtain ⟨w, hf⟩ := Option.isSome_iff_exists.mp hsome
    rw [hf]
  · intro hnoid hnoname
    unfold get_zettel_by_id_or_file_name
    have hfirst : (if zkIdMatch r then S.find? (fun z => z.id = some r)
        else none) = none := by
      rcases hnoid with h | h
      · rw [h]; rfl
      · split
        · rw [List.find?_eq_none]
          intro x hx
          simp [h x hx]
        · rfl
    rw [hfirst]
    have hsecond : S.find? (fun z => decide (z.file_name = r)) = none := by
      rw [List.find?_eq_none]
      intro x hx
      simp [hnoname x hx]
    rw [hsecond]
  · intro hnoid hnoname hnoext
    unfold get_zettel_by_id_or_file_name
    have hfirst : (if zkIdMatch r then S.find? (fun z => z.id = some r)
        else none) = none := by
      rcases hnoid with h | h
      · rw [h]; rfl
      · split
        · rw [List.find?_eq_none]
          intro x hx
          simp [h x hx]
        · rfl
    rw [hfirst]
    have hsecond : S.find? (fun z => decide (z.file_name = r)) = none := by
      rw [List.find?_eq_none]
      intro x hx
      simp [hnoname x hx]
    rw [hsecond]
    rw [List.find?_eq_none]
    intro x hx
    simp [hnoext x hx]

/-- Witness for C4 at the spec's own ID-precedence example: the note set
holds both a note whose file stem is `20200101000000` (listed first) and a
distinct note whose ID is `20200101000000`; resolving `20200101000000`
returns the ID match, not the stem match. -/
theorem resolution_order_witness :
    zkIdMatch "20200101000000" = true ∧
    get_zettel_by_id_or_file_name "20200101000000" [zettelStem, zettelWithId] =
      some zettelWithId := by
  refine ⟨by decide, ?_⟩
  have h := (resolution_order "20200101000000" [zettelStem, zettelWithId]).1
    (by decide) ⟨zettelWithId, by decide, by decide⟩
  rw [h]
  decide

theorem show_delete_confirmation_menu_no_unlink (p q : String)
    (ds : List DeleteDecision) :
    FsAction.permanentUnlink q ∉ show_delete_confirmation_menu p ds := by
  induction ds with
  | nil => simp [show_delete_confirmation_menu]
  | cons d rest ih =>
      cases d with
      | viewIt =>
          rw [show_delete_confirmation_menu]
          intro hmem
          rcases List.mem_cons.mp hmem with habs | hmem'
          · exact absurd habs (by simp)
          · exact ih hmem'
      | deleteIt =>
          rw [show_delete_confirmation_menu]
          simp
      | cancelIt =>
          rw [show_delete_confirmation_menu]
          simp

/-- C6: the reconciler considers a pre-existing path for deletion only when
it is not among the newly generated paths, does not end with `header.html`
or `footer.html`, and is not in the ignore list; a missing ignore file is
treated exactly as an empty ignore list rather than as an error; and every
filesystem-changing action the reconciler performs is a send-to-trash,
never a permanent unlink. -/
theorem reconciler_only_deletes_unprotected (norm : String → String)
    (old_paths new_paths : List String) (ignoreFileContents : Option String)
    (decisions : String → List DeleteDecision) :
    (∀ p, p ∈ delete_old_html_files norm old_paths new_paths
        ignoreFileContents →
      p ∉ new_paths ∧ pyEndsWith p "header.html" = false ∧
        pyEndsWith p "footer.html" = false ∧
        ∀ ic, ignoreFileContents = some ic →
          p ∉ (pySplitNewlines ic).map norm) ∧
    delete_old_html_files norm old_paths new_paths none =
      (old_paths.map norm).filter (fun p =>
        ¬ new_paths.contains p ∧ ¬ pyEndsWith p "footer.html" ∧
        ¬ pyEndsWith p "header.html") ∧
    (∀ q, FsAction.permanentUnlink q ∉
      deleteOldHtmlFilesActions norm old_paths new_paths ignoreFileContents
        decisions) := by
  refine ⟨?_, ?_, ?_⟩
  · intro p hp
    unfold delete_old_html_files at hp
    have hcond := List.of_mem_filter hp
    simp only [decide_eq_true_eq] at hcond
    refine ⟨?_, ?_, ?_, ?_⟩
    · intro habs
      exact hcond.1 (List.elem_eq_true_of_mem habs)
    · exact Bool.eq_false_iff.mpr hcond.2.2.1
    · exact Bool.eq_false_iff.mpr hcond.2.1
    · intro ic hic habs
      rw [hic] at hcond
      exact hcond.2.2.2 (List.elem_eq_true_of_mem habs)
  · unfold delete_old_html_files
    refine List.filter_congr ?_
    intro p _
    simp
  · intro q hq
    unfold deleteOldHtmlFilesActions at hq
    rw [List.mem_flatMap] at hq
    obtain ⟨p, -, hmem⟩ := hq
    exact show_delete_confirmation_menu_no_unlink p q (decisions p) hmem

/-- Witness for C6 at the spec's example extended with one genuine
candidate: of the old files, `a.html` is protected by regeneration,
`b.html` by the ignore list, `header.html` unconditionally; only `c.html`
is offered for deletion, and a `Delete` decision on it produces only a
send-to-trash action. -/
theorem reconciler_only_deletes_unprotected_witness :
    "c.html" ∈ delete_old_html_files id
        ["a.html", "b.html", "header.html", "c.html"] ["a.html"]
        (some "b.html") ∧
    ("c.html" ∉ (["a.html"] : List String) ∧
      pyEndsWith "c.html" "header.html" = false ∧
      pyEndsWith "c.html" "footer.html" = false ∧
      ∀ ic, (some "b.html" : Option String) = some ic →
        "c.html" ∉ (pySplitNewlines ic).map id) ∧
    delete_old_html_files id ["a.html", "b.html", "header.html", "c.html"]
      ["a.html"] (some "b.html") = ["c.html"] ∧
    (∀ q, FsAction.permanentUnlink q ∉
      deleteOldHtmlFilesActions id ["a.html", "b.html", "header.html", "c.html"]
        ["a.html"] (some "b.html") (fun _ => [.deleteIt])) := by
  have hmem : "c.html" ∈ delete_old_html_files id
      ["a.html", "b.html", "header.html", "c.html"] ["a.html"]
      (some "b.html") := by decide
  refine ⟨hmem, ?_, by decide, ?_⟩
  · exact (reconciler_only_deletes_unprotected id
      ["a.html", "b.html", "header.html", "c.html"] ["a.html"]
      (some "b.html") (fun _ => [.deleteIt])).1 "c.html" hmem
  · exact (reconciler_only_deletes_unprotected id
      ["a.html", "b.html", "header.html", "c.html"] ["a.html"]
      (some "b.html") (fun _ => [.deleteIt])).2.2

/-- C7: the chronological index lists the non-root notes that have an ID
first, in an order that is a permutation of them with no entry lexically
smaller than a later one (ID descending, newest first), each entry
optionally prefixed by the date `YYYY/MM/DD` sliced from the ID's first 8
characters; the non-root notes without an ID follow afterward under the
`undated pages` heading, in their original discovery order. -/
theorem chronological_index_spec (zettels : List Zettel)
    (hide_chrono_index_dates : Bool) :
    ∃ sorted_zettels : List Zettel,
      sorted_zettels.Perm ((zettels.filter
        (fun z => ¬ rootPages.contains z.file_name)).filter
          (fun z => z.id.isSome)) ∧
      sorted_zettels.Pairwise
        (fun a b => pyStrLt (chronoKey a) (chronoKey b) = false) ∧
      create_chronological_index zettels hide_chrono_index_dates =
        String.join (
          (if hide_chrono_index_dates then [] else [chronoDatesNote]) ++
          [String.intercalate "\n"
            (sorted_zettels.map (chronoEntry hide_chrono_index_dates))] ++
          (if ((zettels.filter
              (fun z => ¬ rootPages.contains z.file_name)).filter
                (fun z => z.id.isNone)).isEmpty then []
           else ["\n\n### undated pages\n\n" ++ String.intercalate "\n"
            (((zettels.filter
              (fun z => ¬ rootPages.contains z.file_name)).filter
                (fun z => z.id.isNone)).map (fun z => "* " ++ z.link))])) := by
  refine ⟨sortDescBy chronoKey ((zettels.filter
    (fun z => ¬ rootPages.contains z.file_name)).filter
      (fun z => z.id.isSome)), sortDescBy_perm _ _, sortDescBy_pairwise _ _, ?_⟩
  unfold create_chronological_index
  dsimp only
  have hcond : ∀ l : List Zettel,
      (List.map (fun z => "* " ++ z.link) l).isEmpty = l.isEmpty := by
    intro l
    cases l <;> rfl
  rw [hcond]
  by_cases hu : ((zettels.filter
      (fun z => ¬ rootPages.contains z.file_name)).filter
        (fun z => z.id.isNone)).isEmpty = true
  · rw [if_pos hu, if_pos hu, List.append_nil]
  · rw [if_neg hu, if_neg hu]

theorem stringMk_data (s : String) : String.mk s.data = s := rfl

/-- C1: evaluation of the link-rewrite pass at notes containing a broken
wiki-link reference.  Contrary to the spec, the run is not continued with a
warning: the resolver result is dereferenced without a `None` check, so the
pass aborts with `AttributeError` and persists nothing — whether the broken
reference comes before or after a valid link, the valid link's rewrite is
never saved either.  (The current revision is in fact broken one step
earlier: `ssg/convert_links.py` imports `get_zettel_by_id` from
`ssg.zettel`, which no longer defines that name, so the module cannot even
be imported; the embedding models the resolution the imported name had in
`src/zettel.py`, which returns `None` for an unknown ID, as the repository's
own test `test_get_nonexistent_zettel` documents for the current
resolver.) -/
theorem broken_link_aborts_run :
    convert_zettel_links_from_zk_to_md zettelA [zettelB] default_md_linker
        "see [[20200101000001]] and [[20200522233055]] New Title" =
      .error ("AttributeError: 'NoneType' object has no attribute 'link'" ++
        " (unresolved reference 20200101000001)") ∧
    convert_zettel_links_from_zk_to_md zettelA [zettelB] default_md_linker
        "see [[20200522233055]] New Title and [[20200101000001]]" =
      .error ("AttributeError: 'NoneType' object has no attribute 'link'" ++
        " (unresolved reference 20200101000001)") := by
  exact ⟨rfl, rfl⟩

/-- Counterexample to C2: the wiki→markdown link rewrite operates on the
raw note text with no code-fence protection, so a fenced code block whose
content is the target's full canonical link text is rewritten inside the
fence — the block's content is not byte-identical after the rewrite. -/
theorem code_fence_rewritten_by_link_pass :
    convert_zettel_links_from_zk_to_md zettelA [zettelB] default_md_linker
        "x\n```\n[[20200522233055]] New Title\n```\n" =
      .ok ("x\n```\n[New Title](20200522233055)\n```\n", []) := by
  rfl

theorem convertLoop_no_occurrence (zettel : Zettel) (zettels : List Zettel)
    (md_linker : Zettel → Zettel → String) :
    ∀ (ids : List String) (contents : String) (ws : List String),
      (∀ i ∈ ids, (get_zettel_by_id i zettels).isSome = true) →
      (∀ z ∈ zettels, occursIn z.link.data contents.data = false) →
      ∃ ws', convertLoop zettel zettels md_linker ids contents ws =
        .ok (contents, ws') := by
  intro ids
  induction ids with
  | nil => exact fun contents ws _ _ => ⟨ws, rfl⟩
  | cons i rest ih =>
      intro contents ws hres hnolink
      obtain ⟨linked, hf⟩ := Option.isSome_iff_exists.mp (hres i (by simp))
      have hmem : linked ∈ zettels := List.mem_of_find?_eq_some hf
      have hnoocc := hnolink linked hmem
      rw [convertLoop, hf]
      dsimp only
      rw [show String.mk (replaceAllL linked.link.data
          (md_linker zettel linked).data contents.data) = contents by
        rw [replaceAllL_of_not_occurs _ hnoocc, stringMk_data]]
      exact ih contents _ (fun j hj => hres j (by simp [hj])) hnolink

/-- C2 (amended): code-span protection does hold for the rewrites routed
through `replace_pattern` (the code spans are cut out before the
substitution and restored verbatim), but the wiki→markdown link rewrite of
`convert_links.py` bypasses that mechanism: it replaces exactly the
occurrences of a resolved target's full canonical link text anywhere in the
text, code fences included.  Consequently a fenced block containing only
the bare literal `[[20200522233055]]` is still never rewritten — as long as
no target's full canonical link text occurs in a note, the pass leaves the
note byte-identical. -/
theorem convert_preserves_text_without_canonical_links (zettel : Zettel)
    (zettels : List Zettel) (md_linker : Zettel → Zettel → String)
    (contents : String)
    (hres : ∀ i ∈ (findLinkIds contents.data).eraseDups,
      (get_zettel_by_id i zettels).isSome = true)
    (hnolink : ∀ z ∈ zettels, occursIn z.link.data contents.data = false) :
    ∃ ws, convert_zettel_links_from_zk_to_md zettel zettels md_linker
      contents = .ok (contents, ws) := by
  unfold convert_zettel_links_from_zk_to_md
  exact convertLoop_no_occurrence zettel zettels md_linker _ contents [] hres
    hnolink

/-- Witness for the amended C2 at the spec's own example: a fenced code
block containing the bare literal `[[20200522233055]]` (the target's
canonical link text is `[[20200522233055]] New Title`, which does not occur)
passes through the link rewrite byte-identically. -/
theorem convert_preserves_text_without_canonical_links_witness :
    ∃ ws, convert_zettel_links_from_zk_to_md zettelA [zettelB]
      default_md_linker "x\n```\n[[20200522233055]]\n```\n" =
        .ok ("x\n```\n[[20200522233055]]\n```\n", ws) :=
  convert_preserves_text_without_canonical_links zettelA [zettelB]
    default_md_linker "x\n```\n[[20200522233055]]\n```\n" (by decide) (by decide)

/-- Counterexample to C3: when note A's body holds a wiki link with a valid
ID but a stale display title, the pass does emit the outdated-title warning
— but it does not rewrite the occurrence.  The replacement only targets the
target's current canonical link text `[[20200522233055]] New Title`, which
does not occur, so the body is persisted unchanged and no markdown link is
produced. -/
theorem stale_title_occurrence_not_rewritten :
    convert_zettel_links_from_zk_to_md zettelA [zettelB] default_md_linker
        "see [[20200522233055]] Old Title" =
      .ok ("see [[20200522233055]] Old Title",
        ["`A` has a link with a valid ID but an outdated title." ++
          " It should be: [[20200522233055]] New Title"]) := by
  rfl

/-- C3 (amended): for a note whose body's only distinct wiki-link ID
resolves to a target whose canonical link text does not appear verbatim in
the body (the stale-title situation), the pass emits exactly the
outdated-title warning naming the expected canonical form, and persists the
body unchanged: the stale occurrence is left as it was, and no markdown
link is substituted for it. -/
theorem stale_title_warns_and_leaves_text (zettel B : Zettel)
    (zettels : List Zettel) (md_linker : Zettel → Zettel → String)
    (contents : String) (i : String)
    (hids : (findLinkIds contents.data).eraseDups = [i])
    (hres : get_zettel_by_id i zettels = some B)
    (hstale : occursIn B.link.data contents.data = false) :
    convert_zettel_links_from_zk_to_md zettel zettels md_linker contents =
      .ok (contents, [staleWarning zettel B]) := by
  unfold convert_zettel_links_from_zk_to_md
  rw [hids]
  rw [convertLoop, hres]
  dsimp only
  rw [if_neg (by rw [hstale]; exact Bool.false_ne_true)]
  rw [show String.mk (replaceAllL B.link.data
      (md_linker zettel B).data contents.data) = contents by
    rw [replaceAllL_of_not_occurs _ hstale, stringMk_data]]
  rw [convertLoop]
  rw [List.nil_append]

/-- Witness for the amended C3 at a concrete stale-title note. -/
theorem stale_title_warns_and_leaves_text_witness :
    convert_zettel_links_from_zk_to_md zettelA [zettelB] default_md_linker
        "cf. [[20200522233055]] A Stale Name" =
      .ok ("cf. [[20200522233055]] A Stale Name",
        [staleWarning zettelA zettelB]) :=
  stale_title_warns_and_leaves_text zettelA zettelB [zettelB]
    default_md_linker "cf. [[20200522233055]] A Stale Name" "20200522233055"
    (by decide) (by decide) (by decide)

/-- Counterexample to C5: a published note that is not covered by a
filename convention and whose body contains no matchable level-1 header
does not make construction fail in the current revision — the title
derivation silently substitutes the file name with its extension. -/
theorem missing_title_not_fatal :
    ssg_get_zettel_title "note.md" "Hello\nWorld #published" = "note.md" := by
  rfl

/-- C5 (amended): in the current revision (`ssg/zettel.py`), a note not
covered by a filename convention whose body has no `"h1 content"` match
gets its file name with extension as its title, and construction succeeds;
only the older revision (`src/zettel.py`) raised `ValueError` and aborted
the run when its `h1_content` pattern found no match. -/
theorem missing_title_falls_back_to_file_name (file_name_and_ext contents :
    String) (h1 : file_name_and_ext ≠ "index.md")
    (h2 : file_name_and_ext ≠ "about.md")
    (hssg : ssgH1Match contents = none)
    (hold : oldH1Aux none none contents.data = none) :
    ssg_get_zettel_title file_name_and_ext contents = file_name_and_ext ∧
    old_get_zettel_title file_name_and_ext contents =
      .error ("Zettel missing a title: " ++ file_name_and_ext) := by
  constructor
  · unfold ssg_get_zettel_title
    rw [if_neg h1, if_neg h2, hssg]
  · unfold old_get_zettel_title
    rw [if_neg h1, if_neg h2, hold]

/-- Witness for the amended C5 at a concrete header-less note. -/
theorem missing_title_falls_back_to_file_name_witness :
    ssg_get_zettel_title "emergence.md" "Hello\nWorld" = "emergence.md" ∧
    old_get_zettel_title "emergence.md" "Hello\nWorld" =
      .error "Zettel missing a title: emergence.md" :=
  missing_title_falls_back_to_file_name "emergence.md" "Hello\nWorld"
    (by decide) (by decide) (by decide) (by decide)

/-- Counterexample to C9: the default link formatter does not adjust the
path in the subfolder-to-root direction.  A non-root note (which lands in
the `pages` subfolder) linking to the root `index` page gets the bare
target `(index.md)` — exactly the same text a root-to-root link gets — with
no parent-directory or subfolder adjustment, so the relative link resolves
to `pages/index.html` instead of the site root's `index.html`. -/
theorem md_linker_misses_reverse_direction :
    create_markdown_link pagesNote indexNote = "[[§] index](index.md)" ∧
    create_markdown_link indexNote indexNote = "[[§] index](index.md)" := by
  exact ⟨rfl, rfl⟩

/-- C9 (amended): the formatter special-cases only one cross-directory
direction: when the source note is a root page and the target is not, the
target path is prefixed with the site subfolder name; whenever the source
note is not a root page — including when the target is a root page — the
produced path is the target's bare file name with extension, with no
adjustment. -/
theorem md_linker_adjusts_only_root_to_subfolder (zettel linked_zettel :
    Zettel) :
    (rootPages.contains zettel.file_name = true →
      rootPages.contains linked_zettel.file_name = false →
      create_markdown_link zettel linked_zettel =
        "[" ++ internalHtmlLinkPrefixSetting ++ linked_zettel.title ++ "](" ++
          siteSubfolderName ++ "/" ++ linked_zettel.file_name_and_ext ++ ")") ∧
    (rootPages.contains zettel.file_name = false →
      create_markdown_link zettel linked_zettel =
        "[" ++ internalHtmlLinkPrefixSetting ++ linked_zettel.title ++ "](" ++
          linked_zettel.file_name_and_ext ++ ")") := by
  constructor
  · intro hsrc htgt
    unfold create_markdown_link
    rw [if_pos ⟨by rw [htgt]; exact Bool.false_ne_true, hsrc⟩]
  · intro hsrc
    unfold create_markdown_link
    rw [if_neg (by
      rintro ⟨-, habs⟩
      rw [hsrc] at habs
      exact Bool.false_ne_true habs)]

/-- Witness for the amended C9: a root-to-subfolder link is prefixed with
`pages/`, while a subfolder-to-root link is the bare file name. -/
theorem md_linker_adjusts_only_root_to_subfolder_witness :
    create_markdown_link indexNote pagesNote =
      "[[§] PageNote](pages/20200101000001.md)" ∧
    create_markdown_link pagesNote indexNote = "[[§] index](index.md)" :=
  ⟨(md_linker_adjusts_only_root_to_subfolder indexNote pagesNote).1
      (by decide) (by decide),
    (md_linker_adjusts_only_root_to_subfolder pagesNote indexNote).2
      (by decide)⟩

theorem pyListRemove_some {x : Zettel} {l l' : List Zettel}
    (h : pyListRemove x l = some l') : x ∈ l ∧ l' = l.erase x := by
  unfold pyListRemove at h
  split at h
  · next hmem => exact ⟨hmem, (Option.some_inj.mp h).symm⟩
  · cases h

theorem catTagPass_error {tag : String} {v : Zettel} {zs : List Zettel}
    (hm : catMatches tag v = true) :
    ∀ {unlinked : List Zettel}, v ∈ zs → unlinked.count v = 0 →
    ∃ e, catTagPass tag zs unlinked = .error e := by
  induction zs with
  | nil => intro unlinked hv; cases hv
  | cons z zs ih =>
      intro unlinked hv hcount
      rw [catTagPass]
      by_cases hz : catMatches tag z = true
      · rw [if_pos hz]
        by_cases hzv : z = v
        · subst hzv
          rw [show pyListRemove z unlinked = none from by
            simp [pyListRemove, List.count_eq_zero.mp hcount]]
          exact ⟨_, rfl⟩
        · cases hrem : pyListRemove z unlinked with
          | none => exact ⟨_, rfl⟩
          | some u1 =>
              obtain ⟨hmem, hu1⟩ := pyListRemove_some hrem
              have hc1 : u1.count v = 0 := by
                rw [hu1, List.count_erase_of_ne (fun h => hzv h.symm)]
                exact hcount
              have hv' : v ∈ zs := by
                rcases List.mem_cons.mp hv with h | h
                · exact absurd h.symm hzv
                · exact h
              obtain ⟨e, he⟩ := ih hv' hc1
              dsimp only
              rw [he]
              exact ⟨e, rfl⟩
      · rw [if_neg hz]
        have hzv : z ≠ v := fun h => hz (h ▸ hm)
        have hv' : v ∈ zs := by
          rcases List.mem_cons.mp hv with h | h
          · exact absurd h.symm hzv
          · exact h
        exact ih hv' hcount

theorem catTagPass_count_unmatched {tag : String} {v : Zettel}
    {zs : List Zettel} :
    ∀ {unlinked u' : List Zettel} {ls : List String},
      catTagPass tag zs unlinked = .ok (ls, u') →
      (catMatches tag v = false ∨ v ∉ zs) →
      u'.count v = unlinked.count v := by
  induction zs with
  | nil =>
      intro unlinked u' ls hok _
      rw [catTagPass] at hok
      cases hok
      rfl
  | cons z zs ih =>
      intro unlinked u' ls hok hv
      rw [catTagPass] at hok
      by_cases hz : catMatches tag z = true
      · rw [if_pos hz] at hok
        cases hrem : pyListRemove z unlinked with
        | none => rw [hrem] at hok; exact absurd hok (by simp)
        | some u1 =>
            rw [hrem] at hok
            dsimp only at hok
            obtain ⟨hmem, hu1⟩ := pyListRemove_some hrem
            cases hrec : catTagPass tag zs u1 with
            | error e => rw [hrec] at hok; exact absurd hok (by simp)
            | ok p =>
                obtain ⟨ls1, u1'⟩ := p
                rw [hrec] at hok
                dsimp only at hok
                simp only [Except.ok.injEq, Prod.mk.injEq] at hok
                have hzv : z ≠ v := by
                  intro h
                  rcases hv with hfalse | hnot
                  · rw [h] at hz
                    rw [hz] at hfalse
                    cases hfalse
                  · exact hnot (h ▸ List.mem_cons_self z zs)
                have hv' : catMatches tag v = false ∨ v ∉ zs := by
                  rcases hv with h | h
                  · exact Or.inl h
                  · exact Or.inr (fun hmem' => h (List.mem_cons_of_mem z hmem'))
                rw [← hok.2, ih hrec hv', hu1,
                  List.count_erase_of_ne (fun h => hzv h.symm)]
      · rw [if_neg hz] at hok
        have hv' : catMatches tag v = false ∨ v ∉ zs := by
          rcases hv with h | h
          · exact Or.inl h
          · exact Or.inr (fun hmem' => h (List.mem_cons_of_mem z hmem'))
        exact ih hok hv'

theorem catTagPass_count_matched {tag : String} {v : Zettel}
    {zs : List Zettel} (hm : catMatches tag v = true) :
    ∀ {unlinked u' : List Zettel} {ls : List String},
      catTagPass tag zs unlinked = .ok (ls, u') →
      v ∈ zs → zs.Nodup →
      u'.count v + 1 = unlinked.count v := by
  induction zs with
  | nil => intro unlinked u' ls _ hv; cases hv
  | cons z zs ih =>
      intro unlinked u' ls hok hv hnd
      rw [List.nodup_cons] at hnd
      rw [catTagPass] at hok
      by_cases hz : catMatches tag z = true
      · rw [if_pos hz] at hok
        cases hrem : pyListRemove z unlinked with
        | none => rw [hrem] at hok; exact absurd hok (by simp)
        | some u1 =>
            rw [hrem] at hok
            dsimp only at hok
            obtain ⟨hmem, hu1⟩ := pyListRemove_some hrem
            cases hrec : catTagPass tag zs u1 with
            | error e => rw [hrec] at hok; exact absurd hok (by simp)
            | ok p =>
                obtain ⟨ls1, u1'⟩ := p
                rw [hrec] at hok
                dsimp only at hok
                simp only [Except.ok.injEq, Prod.mk.injEq] at hok
                by_cases hzv : z = v
                · subst hzv
                  have hvnot : z ∉ zs := hnd.1
                  have hcu' : u1'.count z = u1.count z :=
                    catTagPass_count_unmatched hrec (Or.inr hvnot)
                  have hcerase : u1.count z = unlinked.count z - 1 := by
                    rw [hu1, List.count_erase_self]
                  have hpos : 0 < unlinked.count z :=
                    List.count_pos_iff.mpr hmem
                  rw [← hok.2, hcu', hcerase]
                  omega
                · have hv' : v ∈ zs := by
                    rcases List.mem_cons.mp hv with h | h
                    · exact absurd h.symm hzv
                    · exact h
                  have := ih hrec hv' hnd.2
                  rw [← hok.2, this, hu1,
                    List.count_erase_of_ne (fun h => hzv h.symm)]
      · rw [if_neg hz] at hok
        have hzv : z ≠ v := fun h => hz (h ▸ hm)
        have hv' : v ∈ zs := by
          rcases List.mem_cons.mp hv with h | h
          · exact absurd h.symm hzv
          · exact h
        exact ih hok hv' hnd.2

theorem catTagPass_ok_of_present {tag : String} {zs : List Zettel} :
    ∀ {unlinked : List Zettel}, zs.Nodup →
      (∀ z ∈ zs, catMatches tag z = true → z ∈ unlinked) →
      ∃ ls u', catTagPass tag zs unlinked = .ok (ls, u') := by
  induction zs with
  | nil => intro unlinked _ _; exact ⟨[], unlinked, rfl⟩
  | cons z zs ih =>
      intro unlinked hnd hpres
      rw [List.nodup_cons] at hnd
      by_cases hz : catMatches tag z = true
      · have hmem : z ∈ unlinked := hpres z (List.mem_cons_self z zs) hz
        have hrem : pyListRemove z unlinked = some (unlinked.erase z) := by
          simp [pyListRemove, hmem]
        have hpres' : ∀ z' ∈ zs, catMatches tag z' = true →
            z' ∈ unlinked.erase z := by
          intro z' hz' hmz'
          have hne : z' ≠ z := fun h => hnd.1 (h ▸ hz')
          exact (List.mem_erase_of_ne hne).mpr
            (hpres z' (List.mem_cons_of_mem z hz') hmz')
        obtain ⟨ls, u', hok⟩ := ih hnd.2 hpres'
        refine ⟨("* " ++ z.link) :: ls, u', ?_⟩
        rw [catTagPass, if_pos hz, hrem]
        dsimp only
        rw [hok]
      · obtain ⟨ls, u', hok⟩ := ih hnd.2 (fun z' hz' hmz' =>
          hpres z' (List.mem_cons_of_mem z hz') hmz')
        refine ⟨ls, u', ?_⟩
        rw [catTagPass, if_neg hz]
        exact hok

theorem catLoop_error {zettels : List Zettel} {v : Zettel}
    (hvz : v ∈ zettels) (hnd : zettels.Nodup) :
    ∀ (tags : List String) (unlinked : List Zettel),
      unlinked.count v + 1 ≤
        (tags.filter (fun t => catMatches t v)).length →
      ∃ e, catLoop zettels tags unlinked = .error e := by
  intro tags
  induction tags with
  | nil =>
      intro unlinked h
      simp only [List.filter_nil, List.length_nil] at h
      omega
  | cons tag tags ih =>
      intro unlinked h
      by_cases hm : catMatches tag v = true
      · rcases Nat.eq_zero_or_pos (unlinked.count v) with hc0 | hcpos
        · obtain ⟨e, he⟩ := catTagPass_error hm hvz hc0
          refine ⟨e, ?_⟩
          rw [catLoop, he]
        · cases hpass : catTagPass tag zettels unlinked with
          | error e =>
              refine ⟨e, ?_⟩
              rw [catLoop, hpass]
          | ok p =>
              obtain ⟨ls, u1⟩ := p
              have hdec := catTagPass_count_matched hm hpass hvz hnd
              have hlen : (List.filter (fun t => catMatches t v)
                  (tag :: tags)).length =
                  (List.filter (fun t => catMatches t v) tags).length + 1 := by
                simp [List.filter_cons, hm]
              have hle : u1.count v + 1 ≤
                  (tags.filter (fun t => catMatches t v)).length := by
                omega
              obtain ⟨e, he⟩ := ih u1 hle
              refine ⟨e, ?_⟩
              rw [catLoop, hpass]
              dsimp only
              rw [he]
      · cases hpass : catTagPass tag zettels unlinked with
        | error e =>
            refine ⟨e, ?_⟩
            rw [catLoop, hpass]
        | ok p =>
            obtain ⟨ls, u1⟩ := p
            have heq := catTagPass_count_unmatched hpass
              (Or.inl (Bool.eq_false_iff.mpr hm))
            have hlen : (List.filter (fun t => catMatches t v)
                (tag :: tags)).length =
                (List.filter (fun t => catMatches t v) tags).length := by
              simp [List.filter_cons, Bool.eq_false_iff.mpr hm]
            have hle : u1.count v + 1 ≤
                (tags.filter (fun t => catMatches t v)).length := by
              omega
            obtain ⟨e, he⟩ := ih u1 hle
            refine ⟨e, ?_⟩
            rw [catLoop, hpass]
            dsimp only
            rw [he]

theorem catLoop_ok {zettels : List Zettel} (hnd : zettels.Nodup) :
    ∀ (tags : List String) (unlinked : List Zettel),
      (∀ v ∈ zettels, (tags.filter (fun t => catMatches t v)).length ≤
        unlinked.count v) →
      ∃ cats u', catLoop zettels tags unlinked = .ok (cats, u') := by
  intro tags
  induction tags with
  | nil => intro unlinked _; exact ⟨[], unlinked, rfl⟩
  | cons tag tags ih =>
      intro unlinked h
      obtain ⟨ls, u1, hpass⟩ := @catTagPass_ok_of_present tag zettels unlinked hnd (by
        intro z hz hmz
        have hcount := h z hz
        rw [show (List.filter (fun t => catMatches t z) (tag :: tags)).length =
            (List.filter (fun t => catMatches t z) tags).length + 1 from by
          simp [List.filter_cons, hmz]] at hcount
        exact List.count_pos_iff.mp (by omega))
      obtain ⟨cats, u', hloop⟩ := ih u1 (by
        intro v hv
        by_cases hm : catMatches tag v = true
        · have hdec := catTagPass_count_matched hm hpass hv hnd
          have hcount := h v hv
          rw [show (List.filter (fun t => catMatches t v) (tag :: tags)).length =
              (List.filter (fun t => catMatches t v) tags).length + 1 from by
            simp [List.filter_cons, hm]] at hcount
          omega
        · have heq := catTagPass_count_unmatched hpass
            (Or.inl (Bool.eq_false_iff.mpr hm))
          have hcount := h v hv
          rw [show (List.filter (fun t => catMatches t v) (tag :: tags)).length =
              (List.filter (fun t => catMatches t v) tags).length from by
            simp [List.filter_cons, Bool.eq_false_iff.mpr hm]] at hcount
          omega)
      refine ⟨(tag, ls) :: cats, u', ?_⟩
      rw [catLoop, hpass]
      dsimp only
      rw [hloop]

/-- C10: `create_categorical_indexes` raises `ValueError` whenever some
non-root note carries two or more of the declared index tags (the note is
removed from the uncategorized pool once per matching tag, and the second
removal fails), and completes without error when every non-root note
carries at most one of them.  The `Nodup` hypothesis mirrors the source,
where the pool holds distinct `Zettel` objects compared by identity. -/
theorem categorical_index_single_tag (zettels : List Zettel)
    (index_tags : List String) (hnd : zettels.Nodup) :
    ((∃ z ∈ zettels, rootPages.contains z.file_name = false ∧
        2 ≤ (index_tags.filter (fun t => t ∈ z.tags)).length) →
      ∃ e, create_categorical_indexes zettels index_tags = .error e) ∧
    ((∀ z ∈ zettels, rootPages.contains z.file_name = false →
        (index_tags.filter (fun t => t ∈ z.tags)).length ≤ 1) →
      ∃ r, create_categorical_indexes zettels index_tags = .ok r) := by
  constructor
  · rintro ⟨z, hz, hroot, h2⟩
    have hroot' : z.file_name ∉ rootPages := by simpa using hroot
    have hbr : (index_tags.filter (fun t => t ∈ z.tags)).length =
        (index_tags.filter (fun t => catMatches t z)).length := by
      congr 1
      apply List.filter_congr
      intro t _
      simp [catMatches, hroot']
    have hcnt : zettels.count z = 1 := List.count_eq_one_of_mem hnd hz
    obtain ⟨e, he⟩ := catLoop_error hz hnd index_tags zettels (by omega)
    refine ⟨e, ?_⟩
    unfold create_categorical_indexes
    rw [he]
  · intro hall
    obtain ⟨cats, u', hok⟩ := catLoop_ok hnd index_tags zettels (by
      intro v hv
      have hcnt : zettels.count v = 1 := List.count_eq_one_of_mem hnd hv
      by_cases hroot : rootPages.contains v.file_name = true
      · have hroot' : v.file_name ∈ rootPages := by simpa using hroot
        have hnil : index_tags.filter (fun t => catMatches t v) = [] := by
          apply List.filter_eq_nil_iff.mpr
          intro t _
          simp [catMatches, hroot']
        rw [hnil]
        simp
      · have hle := hall v hv (Bool.eq_false_iff.mpr hroot)
        have hroot' : v.file_name ∉ rootPages := by
          simpa using Bool.eq_false_iff.mpr hroot
        have hbr : (index_tags.filter (fun t => t ∈ v.tags)).length =
            (index_tags.filter (fun t => catMatches t v)).length := by
          congr 1
          apply List.filter_congr
          intro t _
          simp [catMatches, hroot']
        omega)
    unfold create_categorical_indexes
    rw [hok]
    dsimp only
    exact ⟨_, rfl⟩

/-- A non-root note carrying two tags. -/
def twoTagNote : Zettel := ⟨"20200101000002", "20200101000002.md",
  some "20200101000002", "T", ["#a", "#b"]⟩

/-- Witness for C10: a single non-root note carrying both declared tags
makes the function raise `ValueError`; with a single declared tag it
completes. -/
theorem categorical_index_single_tag_witness :
    (∃ e, create_categorical_indexes [twoTagNote] ["#a", "#b"] = .error e) ∧
    (∃ r, create_categorical_indexes [twoTagNote] ["#a"] = .ok r) := by
  constructor
  · exact (categorical_index_single_tag [twoTagNote] ["#a", "#b"]
      (by decide)).1 ⟨twoTagNote, by decide, by decide, by decide⟩
  · exact (categorical_index_single_tag [twoTagNote] ["#a"] (by decide)).2
      (by decide)

end Aurora
